import Mathlib

/-!
Shallow embedding of the SHPointPower repository.

Source files embedded here:
* `spectral_power.py`  — the harmonic expander `spectral_power`.
* `power_correlation.py` — the degree correlator `power_corr`.

Modelling decisions:
* Floating-point numerics are modelled exactly over `ℝ`.
* The two external numeric routines are abstract function parameters:
  `plmf l m z` stands for pyshtools' orthonormal associated Legendre value
  (with Condon-Shortley phase) and `tppf p df` stands for
  `scipy.stats.t.ppf(p, df)`.  The code only pipes their outputs around, so
  every theorem below is universally quantified over them.
* `spectral_power` returns an `Option`: `np.vstack` raises `ValueError` on an
  empty list of per-sample rows, so a zero-sample call does not return.
* In `power_corr`, the caller-supplied coefficient columns are pandas Series
  with a 0-based RangeIndex (that is what `spectral_power` produces and the
  docstring prescribes), while the regenerated label series keeps labels
  1..n after `.drop(labels=0)`.  `pd.concat(..., axis=1)` joins on those
  labels, `groupby` drops the row whose label is NaN, and `.sum()` treats a
  missing (NaN) value as 0.  This alignment is embedded verbatim in
  `alignedPairs` / `groupSum` below.
-/

noncomputable section

/-- Canonical (l, m) packing: degrees l = 0..L in order, orders m = 0..l inside
each degree.  This is the row layout of the packed pyshtools Legendre vector
(index l(l+1)/2 + m) and of the `deg`/`order` arrays of `spectral_power`. -/
def packed (L : ℕ) : List (ℕ × ℕ) :=
  (List.range (L + 1)).flatMap (fun l => (List.range (l + 1)).map (fun m => (l, m)))

/-- Degree-label sequence: `np.hstack([np.full(x + 1, x) for x in np.arange(degree + 1)])`
(spectral_power.py line 54 and power_correlation.py lines 54-58). -/
def degList (L : ℕ) : List ℕ :=
  (List.range (L + 1)).flatMap (fun l => List.replicate (l + 1) l)

/-- Length of the full packed label sequence, Σ_{l=0}^{L} (l+1). -/
def packedLen (L : ℕ) : ℕ := (degList L).length

/-- Degrees-to-radians conversion, `np.radians`. -/
def radians (x : ℝ) : ℝ := x * (Real.pi / 180)

/-- Cosine coefficient estimate for one (l, m) pair:
`clm = np.sum(plm * cos_m_phi, axis=1)` restricted to the packed row (l, m),
where `plm` row (l,m) holds `plmf l m (cos θ_i)` for each sample i with
colatitude θ = radians(90 - lat), and `cos_m_phi` holds `cos (m * φ_i)`
(spectral_power.py lines 42-62). -/
def clmAt (plmf : ℕ → ℕ → ℝ → ℝ) (lat long : List ℝ) (l m : ℕ) : ℝ :=
  ((lat.zip long).map (fun q =>
    plmf l m (Real.cos (radians (90 - q.1))) * Real.cos (m * radians q.2))).sum

/-- Sine coefficient estimate, `slm = np.sum(plm * sin_m_phi, axis=1)`
(spectral_power.py line 63). -/
def slmAt (plmf : ℕ → ℕ → ℝ → ℝ) (lat long : List ℝ) (l m : ℕ) : ℝ :=
  ((lat.zip long).map (fun q =>
    plmf l m (Real.cos (radians (90 - q.1))) * Real.sin (m * radians q.2))).sum

/-- Flat coefficient array over the whole packing (one entry per packed index). -/
def clmFlat (plmf : ℕ → ℕ → ℝ → ℝ) (lat long : List ℝ) (L : ℕ) : List ℝ :=
  (packed L).map (fun p => clmAt plmf lat long p.1 p.2)

/-- Flat sine-coefficient array over the whole packing. -/
def slmFlat (plmf : ℕ → ℕ → ℝ → ℝ) (lat long : List ℝ) (L : ℕ) : List ℝ :=
  (packed L).map (fun p => slmAt plmf lat long p.1 p.2)

/-- Masked sum of squares, `np.power(clm[deg == d], 2).sum()`
(spectral_power.py lines 67-68): positional boolean masking of a flat numpy
array by the flat degree-label array. -/
def maskedSqSum (L : ℕ) (vals : List ℝ) (d : ℕ) : ℝ :=
  ((((degList L).zip vals).filter (fun q => q.1 == d)).map (fun q => q.2 ^ 2)).sum

/-- Spectral power for degree d:
`4 * np.pi / (n_data * (2 * d + 1)) * (sum_clm[d] + sum_slm[d])`
(spectral_power.py lines 69-72). -/
def sPower (plmf : ℕ → ℕ → ℝ → ℝ) (lat long : List ℝ) (L d : ℕ) : ℝ :=
  4 * Real.pi / (lat.length * (2 * d + 1)) *
    (maskedSqSum L (clmFlat plmf lat long L) d + maskedSqSum L (slmFlat plmf lat long L) d)

/-- Return value of `spectral_power`: the dict with the power table
(columns Degree, Power; degrees as floats) and the coefficient table
(columns deg, ord, clm, slm; deg and ord cast to int). -/
structure SPResult where
  power : List (ℝ × ℝ)
  lmcs : List (ℕ × ℕ × ℝ × ℝ)

/-- Harmonic expander `spectral_power(lat, long, degree)` (spectral_power.py).
The `none` branch models the `ValueError` that `np.vstack` raises on the empty
list of per-sample Legendre rows when there are zero samples.  The `[1:]`
slices that drop the l = 0 monopole entries become `List.range' 1 degree`
(for `deg_unique[1:]`) and `.drop 1` (for the coefficient columns). -/
def spectral_power (plmf : ℕ → ℕ → ℝ → ℝ) (lat long : List ℝ) (degree : ℕ) :
    Option SPResult :=
  if lat.isEmpty then none
  else some
    { power := (List.range' 1 degree).map
        (fun (d : ℕ) => ((d : ℝ), sPower plmf lat long degree d)),
      lmcs := ((packed degree).map
        (fun p => (p.1, p.2, clmAt plmf lat long p.1 p.2, slmAt plmf lat long p.1 p.2))).drop 1 }

/-- Default value of the `degree` parameter of `spectral_power`
(spectral_power.py line 15). -/
def spectral_power_default_degree : ℕ := 20

/-- Rows written by `lmcs.to_csv(coefs, header=None, index=None)`: the table
values only, no header row and no index column. -/
def lmcsCsv (r : SPResult) : List (List ℝ) :=
  r.lmcs.map (fun q => [(q.1 : ℝ), (q.2.1 : ℝ), q.2.2.1, q.2.2.2])

/-- Rows written by `power.to_csv(pwr_per_deg, header=None, index=None)`. -/
def powerCsv (r : SPResult) : List (List ℝ) :=
  r.power.map (fun q => [q.1, q.2])

/-- File writes performed by `spectral_power` for the optional `coefs` and
`pwr_per_deg` paths (spectral_power.py lines 78-82).  `if coefs:` is Python
truthiness, so an empty-string path writes nothing. -/
def writesFor (coefs pwr_per_deg : Option String) (r : SPResult) :
    List (String × List (List ℝ)) :=
  (match coefs with
   | some path => if path = "" then [] else [(path, lmcsCsv r)]
   | none => []) ++
  (match pwr_per_deg with
   | some path => if path = "" then [] else [(path, powerCsv r)]
   | none => [])

/-- `spectral_power` together with its optional CSV export side effects: the
returned dict is built before the `to_csv` calls and is not touched by them. -/
def spectral_power_files (plmf : ℕ → ℕ → ℝ → ℝ) (lat long : List ℝ)
    (coefs pwr_per_deg : Option String) (degree : ℕ) :
    Option (SPResult × List (String × List (List ℝ))) :=
  (spectral_power plmf lat long degree).map (fun r => (r, writesFor coefs pwr_per_deg r))

/-- Cross-term column `num = (clm * glm) + (slm * hlm)`
(power_correlation.py line 63); the four Series share the same 0-based index,
so Series arithmetic is positional here. -/
def numList (clm slm glm hlm : List ℝ) : List ℝ :=
  List.zipWith (· + ·) (List.zipWith (· * ·) clm glm) (List.zipWith (· * ·) slm hlm)

/-- Sum-of-squares column `np.power(a, 2) + np.power(b, 2)`
(power_correlation.py lines 64-65). -/
def sosList (a b : List ℝ) : List ℝ :=
  List.zipWith (fun x y => x ^ 2 + y ^ 2) a b

/-- The rows of `pd.concat([deg, vals], axis=1)` that survive the groupby:
the regenerated label series keeps index labels 1 .. packedLen L - 1 after
`.drop(labels=0)`, while the caller column has a 0-based RangeIndex.  The
outer join on labels pairs label `degList[k]` with caller value `vals[k]`;
the caller row 0 has a NaN label (dropped by groupby) and a caller value
missing at a label is NaN, which `.sum()` treats as 0 — hence `getD _ 0`. -/
def alignedPairs (L : ℕ) (vals : List ℝ) : List (ℕ × ℝ) :=
  ((List.range (packedLen L)).drop 1).map
    (fun k => ((degList L).getD k 0, vals.getD k 0))

/-- Per-degree grouped sum `corr.groupby(by='deg').sum()` of one column
(power_correlation.py lines 69-71), with the index alignment of
`alignedPairs`. -/
def groupSum (L : ℕ) (vals : List ℝ) (l : ℕ) : ℝ :=
  (((alignedPairs L vals).filter (fun q => q.1 == l)).map (fun q => q.2)).sum

/-- Spec-intended per-degree sum: the regenerated label sequence with its
first element discarded and aligned one-to-one positionally with the
caller-supplied column.  Second definition kept deliberately distinct from
`groupSum` so the two binnings can be compared. -/
def specGroupSum (L : ℕ) (vals : List ℝ) (l : ℕ) : ℝ :=
  (((((degList L).drop 1).zip vals).filter (fun q => q.1 == l)).map (fun q => q.2)).sum

/-- Sorted distinct group keys produced by `groupby(by='deg')`: the label
sequence is nondecreasing, so sorted-unique is `dedup` of the dropped-head
label list. -/
def grpKeys (L : ℕ) : List ℕ :=
  ((degList L).drop 1).dedup

/-- Correlation column `corr['r'] = corr['num'] / np.sqrt(corr['cs_sos'] * corr['gh_sos'])`
for the group with key l (power_correlation.py lines 74-75). -/
def rVal (L : ℕ) (clm slm glm hlm : List ℝ) (l : ℕ) : ℝ :=
  groupSum L (numList clm slm glm hlm) l /
    Real.sqrt (groupSum L (sosList clm slm) l * groupSum L (sosList glm hlm) l)

/-- Column-name suffix `f"{int(conf_level * 100)}"` (power_correlation.py
lines 90-91); `int` truncates toward zero. -/
def pctString (c : ℚ) : String :=
  (Int.toNat ⌊c * 100⌋).repr

/-- Value of the `max` column for confidence level c at displayed degree d:
`alpha = 1 - conf_level`, `t = t.ppf(1 - alpha / 2, df = 2 * deg)`,
`denominator = 2 * deg + t ** 2`, `max = t * np.sqrt(1 / denominator)`
(power_correlation.py lines 84-100). -/
def maxBound (tppf : ℚ → ℕ → ℝ) (c : ℚ) (d : ℕ) : ℝ :=
  tppf (1 - (1 - c) / 2) (2 * d) *
    Real.sqrt (1 / (2 * (d : ℝ) + tppf (1 - (1 - c) / 2) (2 * d) ^ 2))

/-- The (min, max) confidence-bound pair for confidence level c at displayed
degree d; `min = max * -1` (power_correlation.py line 103) and the output
column order is min then max (line 106). -/
def confPair (tppf : ℚ → ℕ → ℝ) (c : ℚ) (d : ℕ) : List ℝ :=
  [-(maxBound tppf c d), maxBound tppf c d]

/-- One output row of `power_corr` in final column order
`['deg', 'r'] ++ [min_c, max_c for each confidence level]`
(power_correlation.py lines 80-108).  `gkey` is the groupby key the row came
from (used by `corr['r']`, computed before line 78), `dshow` is the value the
`deg` column is overwritten with by `np.arange(1, degree + 1)` (used by the
confidence columns, computed after line 78). -/
def corrRow (tppf : ℚ → ℕ → ℝ) (clm slm glm hlm : List ℝ) (L : ℕ) (confs : List ℚ)
    (gkey dshow : ℕ) : List ℝ :=
  (dshow : ℝ) :: rVal L clm slm glm hlm gkey :: confs.flatMap (fun c => confPair tppf c dshow)

/-- Degree correlator `power_corr(clm, slm, glm, hlm, degree, confidence_levels)`
(power_correlation.py): one row per groupby key, in ascending key order, with
the `deg` column overwritten by `np.arange(1, degree + 1)`. -/
def power_corr (tppf : ℚ → ℕ → ℝ) (clm slm glm hlm : List ℝ) (degree : ℕ)
    (confs : List ℚ) : List (List ℝ) :=
  List.zipWith (corrRow tppf clm slm glm hlm degree confs) (grpKeys degree)
    (List.range' 1 degree)

/-- Column names of the returned correlation table, in output order. -/
def corrHeader (confs : List ℚ) : List String :=
  "deg" :: "r" :: confs.flatMap (fun c => ["min" ++ pctString c, "max" ++ pctString c])

/-- Default value of the `degree` parameter of `power_corr`
(power_correlation.py line 15). -/
def power_corr_default_degree : ℕ := 0

/-- Default confidence levels (power_correlation.py lines 48-49). -/
def default_confidence_levels : List ℚ := [0.8, 0.95, 0.99]

/-- Sum of `clm^2 + slm^2` over the rows of the returned coefficient table
whose `deg` column equals l: the quantity Σ_m C(l,m)² + S(l,m)² expressed in
terms of the returned table. -/
def lmcsDegSq (r : SPResult) (l : ℕ) : ℝ :=
  ((r.lmcs.filter (fun q => q.1 == l)).map (fun q => q.2.2.1 ^ 2 + q.2.2.2 ^ 2)).sum

/-- Zero Legendre oracle, used to instantiate witnesses. -/
def plmZero : ℕ → ℕ → ℝ → ℝ := fun _ _ _ => 0

/-- Constant t-quantile oracle, used to instantiate witnesses. -/
def tppfOne : ℚ → ℕ → ℝ := fun _ _ => 1

/-! ### Structural lemmas about the canonical packing -/

lemma degList_eq_map_fst (L : ℕ) : degList L = (packed L).map Prod.fst := by
  unfold degList packed
  rw [List.map_flatMap]
  congr 1
  funext l
  rw [List.map_map]
  have h : (Prod.fst ∘ fun m : ℕ => (l, m)) = fun _ => l := rfl
  rw [h]
  simp [List.eq_replicate, List.length_range]

lemma packed_fst_le {L : ℕ} {p : ℕ × ℕ} (hp : p ∈ packed L) : p.1 ≤ L := by
  simp only [packed, List.mem_flatMap, List.mem_map, List.mem_range] at hp
  obtain ⟨l, hl, m, _, rfl⟩ := hp
  exact Nat.lt_succ_iff.mp hl

lemma packed_succ (L : ℕ) :
    packed (L + 1) = packed L ++ (List.range (L + 2)).map (fun m => (L + 1, m)) := by
  unfold packed
  rw [List.range_succ, List.flatMap_append]
  simp [List.range_succ]

lemma packed_filter_eq : ∀ L l : ℕ, l ≤ L →
    (packed L).filter (fun p => p.1 == l) = (List.range (l + 1)).map (fun m => (l, m)) := by
  intro L
  induction L with
  | zero =>
    intro l hl
    interval_cases l
    decide
  | succ n ih =>
    intro l hl
    rw [packed_succ, List.filter_append]
    rcases Nat.lt_succ_iff_lt_or_eq.mp (Nat.lt_succ_of_le hl) with h | rfl
    · have hln : l ≤ n := Nat.lt_succ_iff.mp h
      rw [ih l hln]
      have hblk : ((List.range (n + 2)).map (fun m => (n + 1, m))).filter
          (fun p => p.1 == l) = [] := by
        rw [List.filter_eq_nil]
        intro a ha
        simp only [List.mem_map, List.mem_range] at ha
        obtain ⟨m, _, rfl⟩ := ha
        simpa using fun e => absurd e (by omega : ¬(n + 1 = l))
      rw [hblk, List.append_nil]
    · have hleft : (packed n).filter (fun p => p.1 == n + 1) = [] := by
        rw [List.filter_eq_nil]
        intro a ha
        have hle := packed_fst_le ha
        simpa using fun e => absurd e (by omega : ¬(a.1 = n + 1))
      have hblk : ((List.range (n + 2)).map (fun m => (n + 1, m))).filter
          (fun p => p.1 == n + 1) = (List.range (n + 2)).map (fun m => (n + 1, m)) := by
        rw [List.filter_eq_self]
        intro a ha
        simp only [List.mem_map, List.mem_range] at ha
        obtain ⟨m, _, rfl⟩ := ha
        simp
      rw [hleft, hblk, List.nil_append]

lemma packed_cons (L : ℕ) : packed L = (0, 0) :: (packed L).drop 1 := by
  induction L with
  | zero => decide
  | succ n ih =>
    rw [packed_succ, ih]
    simp [List.cons_append]

lemma degList_succ (L : ℕ) :
    degList (L + 1) = degList L ++ List.replicate (L + 2) (L + 1) := by
  unfold degList
  rw [List.range_succ, List.flatMap_append]
  simp

lemma degList_cons (L : ℕ) : degList L = 0 :: (degList L).drop 1 := by
  induction L with
  | zero => decide
  | succ n ih =>
    rw [degList_succ, ih]
    simp [List.cons_append]

lemma degList_mem_le {L x : ℕ} (hx : x ∈ degList L) : x ≤ L := by
  simp only [degList, List.mem_flatMap, List.mem_replicate, List.mem_range] at hx
  obtain ⟨l, hl, _, rfl⟩ := hx
  exact Nat.lt_succ_iff.mp hl

lemma dedup_replicate_succ (a : ℕ) : ∀ n : ℕ, (List.replicate (n + 1) a).dedup = [a] := by
  intro n
  induction n with
  | zero => simp
  | succ k ih =>
    rw [List.replicate_succ, List.dedup_cons_of_mem (by simp [List.mem_replicate]), ih]

lemma union_singleton {a : ℕ} : ∀ {xs : List ℕ}, a ∉ xs → xs ∪ [a] = xs.dedup ++ [a] := by
  intro xs
  induction xs with
  | nil =>
    intro _
    rfl
  | cons y ys ih =>
    intro h
    simp only [List.mem_cons, not_or] at h
    obtain ⟨hay, hays⟩ := h
    rw [List.cons_union, ih hays]
    by_cases hy : y ∈ ys
    · rw [List.insert_of_mem (by simp [List.mem_dedup.mpr hy]),
        List.dedup_cons_of_mem hy]
    · rw [List.insert_of_not_mem, List.dedup_cons_of_not_mem hy, List.cons_append]
      simp only [List.mem_append, List.mem_dedup, List.mem_singleton, not_or]
      exact ⟨hy, fun e => hay (e ▸ rfl)⟩

lemma grpKeys_eq : ∀ L : ℕ, grpKeys L = List.range' 1 L := by
  intro L
  induction L with
  | zero => decide
  | succ n ih =>
    have hdrop : (degList (n + 1)).drop 1
        = (degList n).drop 1 ++ List.replicate (n + 2) (n + 1) := by
      rw [degList_succ]
      conv_lhs => rw [degList_cons n]
      simp [List.cons_append]
    have hnot : n + 1 ∉ (degList n).drop 1 := by
      intro hmem
      have := degList_mem_le (List.drop_subset 1 (degList n) hmem)
      omega
    unfold grpKeys
    rw [hdrop, List.dedup_append, dedup_replicate_succ, union_singleton hnot]
    have hkeys : ((degList n).drop 1).dedup = List.range' 1 n := ih
    rw [hkeys]
    have hconc := @List.range'_concat 1 1 n
    simp only [one_mul] at hconc
    rw [hconc]
    simp [Nat.add_comm]

/-! ### Small list helpers -/

lemma flatMap_length_two {α β : Type} (F : α → List β) (hF : ∀ c, (F c).length = 2) :
    ∀ xs : List α, (xs.flatMap F).length = 2 * xs.length := by
  intro xs
  induction xs with
  | nil => simp
  | cons c cs ih =>
    rw [List.flatMap_cons]
    simp only [List.length_append, List.length_cons, ih, hF c]
    omega

lemma pair_flatMap_get? {α β : Type} (f g : α → β) :
    ∀ (xs : List α) (j : ℕ),
      ((xs.flatMap fun c => [f c, g c]).get? (2 * j) = (xs.get? j).map f)
      ∧ ((xs.flatMap fun c => [f c, g c]).get? (2 * j + 1) = (xs.get? j).map g) := by
  intro xs
  induction xs with
  | nil => intro j; simp
  | cons c cs ih =>
    intro j
    cases j with
    | zero => simp [List.flatMap_cons]
    | succ k =>
      have h1 : 2 * (k + 1) = 2 * k + 1 + 1 := by ring
      have h2 : 2 * (k + 1) + 1 = (2 * k + 1 + 1) + 1 := by ring
      rw [List.flatMap_cons]
      constructor
      · rw [h1]
        simpa using (ih k).1
      · rw [h2]
        simpa using (ih k).2

lemma sum_map_add {α : Type} (f g : α → ℝ) : ∀ xs : List α,
    (xs.map fun x => f x + g x).sum = (xs.map f).sum + (xs.map g).sum := by
  intro xs
  induction xs with
  | nil => simp
  | cons x l ih =>
    simp only [List.map_cons, List.sum_cons, ih]
    ring

lemma numList_self : ∀ a b : List ℝ, numList a b a b = sosList a b := by
  intro a
  induction a with
  | nil => intro b; rfl
  | cons x xs ih =>
    intro b
    cases b with
    | nil => rfl
    | cons y ys =>
      show (x * x + y * y) :: numList xs ys xs ys = (x ^ 2 + y ^ 2) :: sosList xs ys
      rw [ih ys]
      congr 1
      ring

/-! ### Extraction lemmas for the two components -/

lemma maskedSqSum_map (L d : ℕ) (hd : d ≤ L) (F : ℕ × ℕ → ℝ) :
    maskedSqSum L ((packed L).map F) d
      = ((List.range (d + 1)).map (fun m => F (d, m) ^ 2)).sum := by
  unfold maskedSqSum
  rw [degList_eq_map_fst, List.zip_map']
  rw [List.filter_map]
  have hcomp : ((fun q : ℕ × ℝ => q.1 == d) ∘ fun a : ℕ × ℕ => (a.1, F a))
      = fun p : ℕ × ℕ => p.1 == d := rfl
  rw [hcomp, packed_filter_eq L d hd, List.map_map, List.map_map]
  rfl

lemma filter_drop_packed_map {α : Type} (L l : ℕ) (h1 : 1 ≤ l) (hL : l ≤ L)
    (G : ℕ × ℕ → α) (p : α → Bool) (hp : ∀ q, p (G q) = (q.1 == l)) :
    (((packed L).map G).drop 1).filter p = (List.range (l + 1)).map (fun m => G (l, m)) := by
  rw [← List.map_drop, List.filter_map]
  have hcomp : (p ∘ G) = fun q : ℕ × ℕ => q.1 == l := funext hp
  rw [hcomp]
  have h0 : ((((0, 0) : ℕ × ℕ)).1 == l) = false := by
    show (0 == l) = false
    simp only [beq_eq_false_iff_ne, ne_eq]
    omega
  have hfull := packed_filter_eq L l hL
  rw [packed_cons L, List.filter_cons, h0] at hfull
  simp only [Bool.false_eq_true, if_false] at hfull
  rw [hfull, List.map_map]
  rfl

lemma power_corr_get? (tppf : ℚ → ℕ → ℝ) (clm slm glm hlm : List ℝ) (L : ℕ)
    (confs : List ℚ) (i : ℕ) (hi : i < L) :
    (power_corr tppf clm slm glm hlm L confs).get? i
      = some (corrRow tppf clm slm glm hlm L confs (1 + i) (1 + i)) := by
  unfold power_corr
  rw [grpKeys_eq, List.zipWith_same, List.get?_map]
  have h := List.get?_range' 1 1 hi
  simp only [one_mul] at h
  rw [h]
  rfl

lemma packed_length (L : ℕ) : (packed L).length = ∑ l ∈ Finset.range (L + 1), (l + 1) := by
  induction L with
  | zero => decide
  | succ n ih =>
    rw [packed_succ, List.length_append, ih]
    simp only [List.length_map, List.length_range]
    rw [Finset.sum_range_succ, Finset.sum_range_succ, Finset.sum_range_succ]

lemma power_corr_getD (tppf : ℚ → ℕ → ℝ) (clm slm glm hlm : List ℝ) (L : ℕ)
    (confs : List ℚ) (i : ℕ) (hi : i < L) :
    (power_corr tppf clm slm glm hlm L confs).getD i []
      = corrRow tppf clm slm glm hlm L confs (1 + i) (1 + i) := by
  rw [List.getD_eq_getD_get?, power_corr_get? tppf clm slm glm hlm L confs i hi]
  rfl

/-! ### Claim theorems -/

/-- C10: When `power_corr` is called with degree = 0 (its literal default), the
regenerated degree-label sequence is empty after its single l = 0 element is
dropped, and the function returns a zero-row correlation table for every
choice of coefficient inputs and confidence levels; no coefficient value
influences the result. -/
theorem power_corr_degree_zero_empty (tppf : ℚ → ℕ → ℝ) (clm slm glm hlm : List ℝ)
    (confs : List ℚ) : power_corr tppf clm slm glm hlm 0 confs = [] := by
  unfold power_corr
  rw [grpKeys_eq]
  rfl

/-- C2 (refuted): the literal default of the `degree` parameter of `power_corr`
is 0, not 20; calling `power_corr` without a degree argument returns an empty
table, while degree = 20 (the behaviour the claim and the docstring describe)
returns a 20-row table.  The `spectral_power` default is 20 as claimed. -/
theorem power_corr_default_degree_mismatch (tppf : ℚ → ℕ → ℝ)
    (clm slm glm hlm : List ℝ) (confs : List ℚ) :
    power_corr_default_degree = 0
    ∧ spectral_power_default_degree = 20
    ∧ power_corr tppf clm slm glm hlm power_corr_default_degree confs = []
    ∧ (power_corr tppf clm slm glm hlm 20 confs).length = 20 := by
  refine ⟨rfl, rfl, ?_, ?_⟩
  · unfold power_corr power_corr_default_degree
    rw [grpKeys_eq]
    rfl
  · unfold power_corr
    rw [grpKeys_eq, List.zipWith_same, List.length_map, List.length_range']

/-- C1 (refuted at a concrete input): with max_degree 1 and the canonical
2-entry caller arrays clm = [1, 0], slm = [0, 0], glm = [1, 0], hlm = [0, 0]
(0-based index, as produced by `spectral_power`), the per-degree sum the code
computes for degree 1 is 0 — the label series keeps index labels 1..2 after
`.drop(labels=0)`, so the outer join shifts the binning and loses the (1,0)
entry — while the spec-intended positional binning of entries under their own
degree gives 1. -/
theorem power_corr_misaligned_binning :
    groupSum 1 (numList [1, 0] [0, 0] [1, 0] [0, 0]) 1 = 0
    ∧ specGroupSum 1 (numList [1, 0] [0, 0] [1, 0] [0, 0]) 1 = 1 := by
  have hnum : numList [(1 : ℝ), 0] [0, 0] [1, 0] [0, 0] = [1, 0] := by
    unfold numList
    norm_num
  have hdeg : degList 1 = [0, 1, 1] := by decide
  have hran : (List.range (packedLen 1)).drop 1 = [1, 2] := by decide
  constructor
  · rw [hnum]
    unfold groupSum alignedPairs
    simp only [hran, hdeg, List.map_cons, List.map_nil]
    norm_num [List.getD]
  · rw [hnum]
    unfold specGroupSum
    simp only [hdeg]
    norm_num [List.zip]

/-- C3 counterexample: with zero samples, `spectral_power` does not return
normally — the stack of per-sample Legendre rows is empty and `np.vstack`
raises — so no table with non-finite power values is produced. -/
theorem spectral_power_empty_input_cex :
    spectral_power plmZero [] [] 20 = none := rfl

/-- C3 (amended): for empty latitude and longitude input, `spectral_power`
raises before any division by N is reached; the call does not return a power
table at all. -/
theorem spectral_power_empty_input_raises (plmf : ℕ → ℕ → ℝ → ℝ) (L : ℕ) :
    spectral_power plmf [] [] L = none := rfl

/-- C7: correlating a coefficient set with itself — `power_corr` with
glm = clm and hlm = slm — puts r(l) = 1 in the `r` column of the row for
every degree l whose grouped sum of squares is strictly positive. -/
theorem power_corr_self_correlation (tppf : ℚ → ℕ → ℝ) (clm slm : List ℝ)
    (L l : ℕ) (confs : List ℚ) (h1 : 1 ≤ l) (hL : l ≤ L)
    (hpos : 0 < groupSum L (sosList clm slm) l) :
    ((power_corr tppf clm slm clm slm L confs).getD (l - 1) []).getD 1 0 = 1 := by
  have hi : l - 1 < L := by omega
  rw [power_corr_getD tppf clm slm clm slm L confs (l - 1) hi]
  have hl1 : 1 + (l - 1) = l := by omega
  rw [hl1]
  show rVal L clm slm clm slm l = 1
  unfold rVal
  rw [numList_self]
  rw [Real.sqrt_mul_self hpos.le]
  exact div_self hpos.ne'

/-- C5: for L ≥ 1 the correlation table has exactly L rows, the deg column is
the sequence 1..L, every row has exactly the header's width, with columns in
the order deg, r, then a (min_c, max_c) pair for each confidence level in
caller order; for confidence levels [0.95] the columns are
(deg, r, min95, max95). -/
theorem power_corr_output_shape (tppf : ℚ → ℕ → ℝ) (clm slm glm hlm : List ℝ)
    (L : ℕ) (confs : List ℚ) (i : ℕ) (hL : 1 ≤ L) (hi : i < L) :
    (power_corr tppf clm slm glm hlm L confs).length = L
    ∧ ((power_corr tppf clm slm glm hlm L confs).getD i []).getD 0 0 = (i : ℝ) + 1
    ∧ ((power_corr tppf clm slm glm hlm L confs).getD i []).length
        = (corrHeader confs).length
    ∧ corrHeader [(0.95 : ℚ)] = ["deg", "r", "min95", "max95"] := by
  have hrow := power_corr_getD tppf clm slm glm hlm L confs i hi
  refine ⟨?_, ?_, ?_, ?_⟩
  · unfold power_corr
    rw [grpKeys_eq, List.zipWith_same, List.length_map, List.length_range']
  · rw [hrow]
    show ((1 + i : ℕ) : ℝ) = (i : ℝ) + 1
    push_cast
    ring
  · rw [hrow]
    unfold corrRow corrHeader
    simp only [List.length_cons]
    rw [flatMap_length_two (fun c => confPair tppf c (1 + i)) (fun c => rfl) confs,
      flatMap_length_two (fun c => ["min" ++ pctString c, "max" ++ pctString c])
        (fun c => rfl) confs]
  · have h95 : pctString (0.95 : ℚ) = "95" := by
      unfold pctString
      have hq : ((0.95 : ℚ) * 100) = 95 := by norm_num
      rw [hq]
      decide
    unfold corrHeader
    rw [List.flatMap_cons, h95]
    rfl

/-- C8: for every degree l = 1..L and requested confidence level (the j-th
entry, value c), the max column in the output row for degree l equals
t * sqrt(1 / (2l + t^2)) with t the Student-t inverse CDF at probability
1 - (1-c)/2 and 2l degrees of freedom, and the min column is exactly its
negation. -/
theorem power_corr_confidence_bounds (tppf : ℚ → ℕ → ℝ) (clm slm glm hlm : List ℝ)
    (L : ℕ) (confs : List ℚ) (l j : ℕ) (c : ℚ)
    (h1 : 1 ≤ l) (hL : l ≤ L) (hj : confs.get? j = some c) :
    ((power_corr tppf clm slm glm hlm L confs).getD (l - 1) []).getD (3 + 2 * j) 0
      = tppf (1 - (1 - c) / 2) (2 * l)
          * Real.sqrt (1 / (2 * (l : ℝ) + tppf (1 - (1 - c) / 2) (2 * l) ^ 2))
    ∧ ((power_corr tppf clm slm glm hlm L confs).getD (l - 1) []).getD (2 + 2 * j) 0
      = -(((power_corr tppf clm slm glm hlm L confs).getD (l - 1) []).getD (3 + 2 * j) 0) := by
  have hi : l - 1 < L := by omega
  have hrow := power_corr_getD tppf clm slm glm hlm L confs (l - 1) hi
  have hl1 : 1 + (l - 1) = l := by omega
  rw [hl1] at hrow
  have hmax : ((power_corr tppf clm slm glm hlm L confs).getD (l - 1) []).getD (3 + 2 * j) 0
      = maxBound tppf c l := by
    rw [hrow]
    have h3 : 3 + 2 * j = (2 * j + 1) + 1 + 1 := by ring
    rw [h3]
    unfold corrRow
    rw [List.getD_cons_succ, List.getD_cons_succ]
    simp only [confPair]
    rw [List.getD_eq_getD_get?,
      (pair_flatMap_get? (fun c => -(maxBound tppf c l)) (fun c => maxBound tppf c l)
        confs j).2, hj]
    rfl
  have hmin : ((power_corr tppf clm slm glm hlm L confs).getD (l - 1) []).getD (2 + 2 * j) 0
      = -(maxBound tppf c l) := by
    rw [hrow]
    have h2 : 2 + 2 * j = (2 * j) + 1 + 1 := by ring
    rw [h2]
    unfold corrRow
    rw [List.getD_cons_succ, List.getD_cons_succ]
    simp only [confPair]
    rw [List.getD_eq_getD_get?,
      (pair_flatMap_get? (fun c => -(maxBound tppf c l)) (fun c => maxBound tppf c l)
        confs j).1, hj]
    rfl
  refine ⟨by rw [hmax]; rfl, by rw [hmin, hmax]⟩

/-- C4: for a nonempty sample set, the power value returned for each degree
l = 1..L equals 4π / (N·(2l+1)) times the sum of C(l,m)² + S(l,m)² over the
rows of the returned coefficient table of degree l, and is nonnegative. -/
theorem spectral_power_power_value (plmf : ℕ → ℕ → ℝ → ℝ) (lat long : List ℝ)
    (L l : ℕ) (res : SPResult) (hres : spectral_power plmf lat long L = some res)
    (h1 : 1 ≤ l) (hL : l ≤ L) :
    (res.power.getD (l - 1) (0, 0)).2
        = 4 * Real.pi / (lat.length * (2 * l + 1)) * lmcsDegSq res l
    ∧ 0 ≤ (res.power.getD (l - 1) (0, 0)).2 := by
  unfold spectral_power at hres
  cases hemp : lat.isEmpty with
  | true =>
    rw [hemp] at hres
    simp at hres
  | false =>
    rw [hemp] at hres
    simp only [Bool.false_eq_true, if_false, Option.some.injEq] at hres
    have hpow : res.power = (List.range' 1 L).map
        (fun (d : ℕ) => ((d : ℝ), sPower plmf lat long L d)) := by
      rw [← hres]
    have hlmcs : res.lmcs = ((packed L).map
        (fun p => (p.1, p.2, clmAt plmf lat long p.1 p.2,
          slmAt plmf lat long p.1 p.2))).drop 1 := by
      rw [← hres]
    have hi : l - 1 < L := by omega
    have hget : ((List.range' 1 L).map
        (fun (d : ℕ) => ((d : ℝ), sPower plmf lat long L d))).get? (l - 1)
        = some ((l : ℝ), sPower plmf lat long L l) := by
      rw [List.get?_map]
      have h := List.get?_range' 1 1 hi
      simp only [one_mul] at h
      rw [h]
      have hl1 : 1 + (l - 1) = l := by omega
      rw [hl1]
      rfl
    have hval : res.power.getD (l - 1) (0, 0) = ((l : ℝ), sPower plmf lat long L l) := by
      rw [hpow, List.getD_eq_getD_get?, hget]
      rfl
    have hc : maskedSqSum L (clmFlat plmf lat long L) l
        = ((List.range (l + 1)).map (fun m => clmAt plmf lat long l m ^ 2)).sum :=
      maskedSqSum_map L l hL (fun p => clmAt plmf lat long p.1 p.2)
    have hs : maskedSqSum L (slmFlat plmf lat long L) l
        = ((List.range (l + 1)).map (fun m => slmAt plmf lat long l m ^ 2)).sum :=
      maskedSqSum_map L l hL (fun p => slmAt plmf lat long p.1 p.2)
    have hfil : (((packed L).map
        (fun p => (p.1, p.2, clmAt plmf lat long p.1 p.2,
          slmAt plmf lat long p.1 p.2))).drop 1).filter (fun q => q.1 == l)
        = (List.range (l + 1)).map
          (fun m => (l, m, clmAt plmf lat long l m, slmAt plmf lat long l m)) :=
      filter_drop_packed_map L l h1 hL _ _ (fun _ => rfl)
    have hcomp : ((fun q : ℕ × ℕ × ℝ × ℝ => q.2.2.1 ^ 2 + q.2.2.2 ^ 2) ∘
        (fun m => (l, m, clmAt plmf lat long l m, slmAt plmf lat long l m)))
        = fun m : ℕ => clmAt plmf lat long l m ^ 2 + slmAt plmf lat long l m ^ 2 := rfl
    refine ⟨?_, ?_⟩
    · rw [hval]
      show sPower plmf lat long L l = _
      unfold sPower
      congr 1
      rw [hc, hs]
      unfold lmcsDegSq
      rw [hlmcs, hfil, List.map_map, hcomp,
        sum_map_add (fun m => clmAt plmf lat long l m ^ 2)
          (fun m => slmAt plmf lat long l m ^ 2) (List.range (l + 1))]
    · rw [hval]
      show 0 ≤ sPower plmf lat long L l
      unfold sPower maskedSqSum
      apply mul_nonneg
      · apply div_nonneg
        · positivity
        · positivity
      · apply add_nonneg <;>
        · apply List.sum_nonneg
          intro x hx
          simp only [List.mem_map] at hx
          obtain ⟨q, _, rfl⟩ := hx
          positivity

/-- C6: for a nonempty sample set and L ≥ 1, the returned coefficient table
has exactly Σ_{l=1}^{L}(l+1) rows (written Σ_{x<L}(x+2)) and the power table
exactly L rows. -/
theorem spectral_power_table_sizes (plmf : ℕ → ℕ → ℝ → ℝ) (lat long : List ℝ)
    (L : ℕ) (res : SPResult) (hres : spectral_power plmf lat long L = some res)
    (hL : 1 ≤ L) :
    res.lmcs.length = ∑ x ∈ Finset.range L, (x + 2) ∧ res.power.length = L := by
  unfold spectral_power at hres
  cases hemp : lat.isEmpty with
  | true =>
    rw [hemp] at hres
    simp at hres
  | false =>
    rw [hemp] at hres
    simp only [Bool.false_eq_true, if_false, Option.some.injEq] at hres
    have hpow : res.power = (List.range' 1 L).map
        (fun (d : ℕ) => ((d : ℝ), sPower plmf lat long L d)) := by
      rw [← hres]
    have hlmcs : res.lmcs = ((packed L).map
        (fun p => (p.1, p.2, clmAt plmf lat long p.1 p.2,
          slmAt plmf lat long p.1 p.2))).drop 1 := by
      rw [← hres]
    constructor
    · rw [hlmcs, List.length_drop, List.length_map, packed_length,
        Finset.sum_range_succ']
      simp
    · rw [hpow, List.length_map, List.length_range']

/-- C9: supplying the optional export paths does not alter the returned
in-memory result — the first component of `spectral_power_files` is exactly
`spectral_power` for every choice of paths — and every file written holds
exactly the value rows of one of the two tables (no header row, no index
column). -/
theorem spectral_power_export_frame (plmf : ℕ → ℕ → ℝ → ℝ) (lat long : List ℝ)
    (coefs pwr_per_deg : Option String) (L : ℕ) (res : SPResult)
    (ws : List (String × List (List ℝ))) (w : String × List (List ℝ))
    (hio : spectral_power_files plmf lat long coefs pwr_per_deg L = some (res, ws))
    (hw : w ∈ ws) :
    (spectral_power_files plmf lat long coefs pwr_per_deg L).map Prod.fst
        = spectral_power plmf lat long L
    ∧ (w.2 = lmcsCsv res ∨ w.2 = powerCsv res) := by
  constructor
  · unfold spectral_power_files
    cases spectral_power plmf lat long L with
    | none => rfl
    | some r => rfl
  · unfold spectral_power_files at hio
    cases hsp : spectral_power plmf lat long L with
    | none =>
      rw [hsp] at hio
      simp at hio
    | some r =>
      rw [hsp] at hio
      simp only [Option.map_some', Option.some.injEq, Prod.mk.injEq] at hio
      obtain ⟨hr, hws⟩ := hio
      subst hr
      subst hws
      rcases List.mem_append.mp hw with h | h
      · rcases coefs with _ | path
        · simp [writesFor] at h
        · simp only [writesFor] at h
          split at h
          · simp at h
          · simp only [List.mem_singleton] at h
            subst h
            exact Or.inl rfl
      · rcases pwr_per_deg with _ | path
        · simp [writesFor] at h
        · simp only [writesFor] at h
          split at h
          · simp at h
          · simp only [List.mem_singleton] at h
            subst h
            exact Or.inr rfl

/-! ### Witnesses -/

/-- Witness for C4 at one sample (lat 0, long 0) and L = l = 1. -/
theorem spectral_power_power_value_witness :
    (spectral_power plmZero [0] [0] 1
        = some ((spectral_power plmZero [0] [0] 1).getD ⟨[], []⟩)
      ∧ (1 : ℕ) ≤ 1 ∧ (1 : ℕ) ≤ 1)
    ∧ ((((spectral_power plmZero [0] [0] 1).getD ⟨[], []⟩).power.getD (1 - 1) (0, 0)).2
        = 4 * Real.pi / (([(0 : ℝ)].length) * (2 * (1 : ℕ) + 1))
            * lmcsDegSq ((spectral_power plmZero [0] [0] 1).getD ⟨[], []⟩) 1
      ∧ 0 ≤ (((spectral_power plmZero [0] [0] 1).getD ⟨[], []⟩).power.getD
          (1 - 1) (0, 0)).2) :=
  ⟨⟨rfl, le_refl 1, le_refl 1⟩,
    spectral_power_power_value plmZero [0] [0] 1 1
      ((spectral_power plmZero [0] [0] 1).getD ⟨[], []⟩) rfl (le_refl 1) (le_refl 1)⟩

/-- Witness for C5 at the spec's concrete instance: max_degree 3, canonical
9-entry inputs, confidence levels [0.95], last row. -/
theorem power_corr_output_shape_witness :
    ((1 : ℕ) ≤ 3 ∧ (2 : ℕ) < 3)
    ∧ ((power_corr tppfOne (List.replicate 9 0) (List.replicate 9 0)
          (List.replicate 9 0) (List.replicate 9 0) 3 [(0.95 : ℚ)]).length = 3
      ∧ ((power_corr tppfOne (List.replicate 9 0) (List.replicate 9 0)
          (List.replicate 9 0) (List.replicate 9 0) 3 [(0.95 : ℚ)]).getD 2 []).getD 0 0
          = ((2 : ℕ) : ℝ) + 1
      ∧ ((power_corr tppfOne (List.replicate 9 0) (List.replicate 9 0)
          (List.replicate 9 0) (List.replicate 9 0) 3 [(0.95 : ℚ)]).getD 2 []).length
          = (corrHeader [(0.95 : ℚ)]).length
      ∧ corrHeader [(0.95 : ℚ)] = ["deg", "r", "min95", "max95"]) :=
  ⟨⟨by norm_num, by norm_num⟩,
    power_corr_output_shape tppfOne (List.replicate 9 0) (List.replicate 9 0)
      (List.replicate 9 0) (List.replicate 9 0) 3 [(0.95 : ℚ)] 2 (by norm_num) (by norm_num)⟩

/-- Witness for C6 at the spec's concrete instance: four equatorial samples at
the cardinal longitudes, max_degree 2; the coefficient table has 5 rows and
the power table has 2 rows. -/
theorem spectral_power_table_sizes_witness :
    (spectral_power plmZero [0, 0, 0, 0] [0, 90, 180, 270] 2
        = some ((spectral_power plmZero [0, 0, 0, 0] [0, 90, 180, 270] 2).getD ⟨[], []⟩)
      ∧ (1 : ℕ) ≤ 2 ∧ (∑ x ∈ Finset.range 2, (x + 2)) = 5)
    ∧ (((spectral_power plmZero [0, 0, 0, 0] [0, 90, 180, 270] 2).getD
          ⟨[], []⟩).lmcs.length = ∑ x ∈ Finset.range 2, (x + 2)
      ∧ ((spectral_power plmZero [0, 0, 0, 0] [0, 90, 180, 270] 2).getD
          ⟨[], []⟩).power.length = 2) :=
  ⟨⟨rfl, by norm_num, by decide⟩,
    spectral_power_table_sizes plmZero [0, 0, 0, 0] [0, 90, 180, 270] 2
      ((spectral_power plmZero [0, 0, 0, 0] [0, 90, 180, 270] 2).getD ⟨[], []⟩) rfl
      (by norm_num)⟩

/-- Witness for C7: self-correlating clm = [0, 1], slm = [0, 0] at L = 1
gives grouped sum of squares 1 > 0 and r = 1. -/
theorem power_corr_self_correlation_witness :
    ((1 : ℕ) ≤ 1 ∧ (1 : ℕ) ≤ 1 ∧ 0 < groupSum 1 (sosList [0, 1] [0, 0]) 1)
    ∧ ((power_corr tppfOne [0, 1] [0, 0] [0, 1] [0, 0] 1 []).getD (1 - 1) []).getD 1 0
        = 1 := by
  have hsos : sosList [(0 : ℝ), 1] [0, 0] = [0 ^ 2 + 0 ^ 2, 1 ^ 2 + 0 ^ 2] := rfl
  have hdeg : degList 1 = [0, 1, 1] := by decide
  have hran : (List.range (packedLen 1)).drop 1 = [1, 2] := by decide
  have hpos : 0 < groupSum 1 (sosList [(0 : ℝ), 1] [0, 0]) 1 := by
    rw [hsos]
    unfold groupSum alignedPairs
    simp only [hran, hdeg, List.map_cons, List.map_nil]
    norm_num [List.getD]
  exact ⟨⟨le_refl 1, le_refl 1, hpos⟩,
    power_corr_self_correlation tppfOne [0, 1] [0, 0] 1 1 [] (le_refl 1) (le_refl 1) hpos⟩

/-- Witness for C8 at L = l = 1, confidence levels [0.95], the constant
t-quantile oracle. -/
theorem power_corr_confidence_bounds_witness :
    ((1 : ℕ) ≤ 1 ∧ (1 : ℕ) ≤ 1 ∧ [(0.95 : ℚ)].get? 0 = some (0.95 : ℚ))
    ∧ (((power_corr tppfOne [] [] [] [] 1 [(0.95 : ℚ)]).getD (1 - 1) []).getD
          (3 + 2 * 0) 0
        = tppfOne (1 - (1 - (0.95 : ℚ)) / 2) (2 * 1)
            * Real.sqrt (1 / (2 * ((1 : ℕ) : ℝ)
                + tppfOne (1 - (1 - (0.95 : ℚ)) / 2) (2 * 1) ^ 2))
      ∧ ((power_corr tppfOne [] [] [] [] 1 [(0.95 : ℚ)]).getD (1 - 1) []).getD
          (2 + 2 * 0) 0
        = -(((power_corr tppfOne [] [] [] [] 1 [(0.95 : ℚ)]).getD (1 - 1) []).getD
            (3 + 2 * 0) 0)) :=
  ⟨⟨le_refl 1, le_refl 1, rfl⟩,
    power_corr_confidence_bounds tppfOne [] [] [] [] 1 [(0.95 : ℚ)] 1 0 (0.95 : ℚ)
      (le_refl 1) (le_refl 1) rfl⟩

/-- Witness for C9: one sample, both export paths supplied, the coefficient
file write. -/
theorem spectral_power_export_frame_witness :
    (spectral_power_files plmZero [0] [0] (some "a.csv") (some "b.csv") 1
        = some ((spectral_power plmZero [0] [0] 1).getD ⟨[], []⟩,
            writesFor (some "a.csv") (some "b.csv")
              ((spectral_power plmZero [0] [0] 1).getD ⟨[], []⟩))
      ∧ ("a.csv", lmcsCsv ((spectral_power plmZero [0] [0] 1).getD ⟨[], []⟩))
          ∈ writesFor (some "a.csv") (some "b.csv")
            ((spectral_power plmZero [0] [0] 1).getD ⟨[], []⟩))
    ∧ ((spectral_power_files plmZero [0] [0] (some "a.csv") (some "b.csv") 1).map
          Prod.fst = spectral_power plmZero [0] [0] 1
      ∧ (("a.csv", lmcsCsv ((spectral_power plmZero [0] [0] 1).getD ⟨[], []⟩)).2
          = lmcsCsv ((spectral_power plmZero [0] [0] 1).getD ⟨[], []⟩)
        ∨ ("a.csv", lmcsCsv ((spectral_power plmZero [0] [0] 1).getD ⟨[], []⟩)).2
          = powerCsv ((spectral_power plmZero [0] [0] 1).getD ⟨[], []⟩))) := by
  have hmem : ("a.csv", lmcsCsv ((spectral_power plmZero [0] [0] 1).getD ⟨[], []⟩))
      ∈ writesFor (some "a.csv") (some "b.csv")
        ((spectral_power plmZero [0] [0] 1).getD ⟨[], []⟩) := by
    show ("a.csv", lmcsCsv ((spectral_power plmZero [0] [0] 1).getD ⟨[], []⟩))
        ∈ ("a.csv", lmcsCsv ((spectral_power plmZero [0] [0] 1).getD ⟨[], []⟩))
          :: [("b.csv", powerCsv ((spectral_power plmZero [0] [0] 1).getD ⟨[], []⟩))]
    exact List.mem_cons_self _ _
  exact ⟨⟨rfl, hmem⟩,
    spectral_power_export_frame plmZero [0] [0] (some "a.csv") (some "b.csv") 1 _ _ _
      rfl hmem⟩

end
